import Mathlib

/-!
Verification of the storage / transaction kernel of simpledb_rust.

Shallow embedding conventions:
* machine bytes are modelled as natural numbers (values below 256 where produced);
* Rust i32 values are modelled as Int with explicit two's-complement reduction
  modulo 2 ^ 32 where the code casts or serializes;
* usize / u64 values are modelled as Nat;
* fallible Rust functions (anyhow::Result) are modelled with Option/Except;
* Rust String values are modelled by their UTF-8 byte sequences, so that
  String::as_bytes is the identity and String::from_utf8 is the identity on
  the byte lists produced by as_bytes.
-/

namespace SimpleDB

/-- Big-endian 4-byte serialization of a natural number below 2 ^ 32;
model of the byte output of i32::to_be_bytes on the value's bit pattern. -/
def natToBe4 (n : Nat) : List Nat :=
  [n / 2 ^ 24 % 256, n / 2 ^ 16 % 256, n / 2 ^ 8 % 256, n % 256]

/-- Big-endian reading of 4 bytes as an unsigned number; model of the bit
pattern read by i32::from_be_bytes. -/
def be4ToNat : List Nat → Nat
  | a :: b :: c :: d :: _ => ((a * 256 + b) * 256 + c) * 256 + d
  | _ => 0

/-- Model of i32::to_be_bytes (file/page.rs, ToPageBytes for i32): the
two's-complement bit pattern of the value, big-endian. -/
def encodeI32 (z : Int) : List Nat :=
  natToBe4 (z % (2 ^ 32)).toNat

/-- Model of i32::from_be_bytes as used by Page::get_i32: decode 4 bytes as a
signed 32-bit value. -/
def decodeI32 (bs : List Nat) : Int :=
  if be4ToNat bs < 2 ^ 31 then (be4ToNat bs : Int) else (be4ToNat bs : Int) - 2 ^ 32

/-- Model of a cast from i32 to usize (sign-extending, as in Rust on 64-bit). -/
def intToUsize (z : Int) : Nat :=
  (z % (2 ^ 64)).toNat

theorem natToBe4_length (n : Nat) : (natToBe4 n).length = 4 := rfl

theorem be4ToNat_natToBe4 (n : Nat) (h : n < 2 ^ 32) :
    be4ToNat (natToBe4 n) = n := by
  simp only [natToBe4, be4ToNat]
  omega

theorem decodeI32_encodeI32 (z : Int) (h1 : -(2 ^ 31) ≤ z) (h2 : z < 2 ^ 31) :
    decodeI32 (encodeI32 z) = z := by
  rw [encodeI32, decodeI32, be4ToNat_natToBe4 _ (by omega)]
  split <;> omega

theorem decodeI32_natToBe4 (n : Nat) (h : n < 2 ^ 31) :
    decodeI32 (natToBe4 n) = (n : Int) := by
  rw [decodeI32, be4ToNat_natToBe4 n (by omega)]
  split <;> omega

/-!  Page (file/page.rs): a fixed-length byte buffer with typed accessors. -/

/-- Model of Page::set_page_bytes: copy the bytes into the buffer at the given
offset.  The Rust guard is offset + size - 1 < len with machine arithmetic;
every caller passes at least 4 bytes (an i32 or a length-prefixed slice), so
the guard is equivalent to offset + size ≤ len.  On overflow the Rust code
returns the BufferSizeExceeded error and leaves the buffer untouched. -/
def setPageBytes (p : List Nat) (off : Nat) (b : List Nat) : Option (List Nat) :=
  if off + b.length ≤ p.length then
    some (p.take off ++ b ++ p.drop (off + b.length))
  else none

/-- Model of Page::get_i32: guard offset + 4 - 1 < len, then decode 4 bytes. -/
def pageGetI32 (p : List Nat) (off : Nat) : Option Int :=
  if off + 4 ≤ p.length then some (decodeI32 ((p.drop off).take 4)) else none

/-- Model of Page::set_i32 via ToPageBytes for i32. -/
def pageSetI32 (p : List Nat) (off : Nat) (n : Int) : Option (List Nat) :=
  setPageBytes p off (encodeI32 n)

/-- Model of ToPageBytes for byte slices: an i32 big-endian length (the usize
length cast to i32) followed by the raw bytes. -/
def bytesToPage (b : List Nat) : List Nat :=
  encodeI32 (b.length : Int) ++ b

/-- Model of Page::set_bytes (and set_string on the UTF-8 bytes). -/
def pageSetBytes (p : List Nat) (off : Nat) (b : List Nat) : Option (List Nat) :=
  setPageBytes p off (bytesToPage b)

/-- Model of Page::set_string: the string is serialized via its UTF-8 bytes. -/
def pageSetString (p : List Nat) (off : Nat) (s : List Nat) : Option (List Nat) :=
  pageSetBytes p off s

/-- Model of Page::get_bytes / get_bytes_vec: read the i32 length prefix at the
offset, cast it to usize, then the guard new_offset + len - 1 < p.len and the
raw bytes.  The subtraction is on Nat; new_offset is at least 4, so it matches
the machine arithmetic for every in-range length (a negative prefix becomes a
huge usize, for which the Rust addition aborts and the model returns none). -/
def pageGetBytes (p : List Nat) (off : Nat) : Option (List Nat) :=
  (pageGetI32 p off).bind fun len =>
    if off + 4 + intToUsize len - 1 < p.length then
      some ((p.drop (off + 4)).take (intToUsize len))
    else none

/-- Model of Page::get_string: get_bytes followed by String::from_utf8, which
is the identity on byte lists written by set_string. -/
def pageGetString (p : List Nat) (off : Nat) : Option (List Nat) :=
  pageGetBytes p off

theorem encodeI32_length (z : Int) : (encodeI32 z).length = 4 := rfl

theorem intToUsize_ofNat (n : Nat) (h : n < 2 ^ 64) : intToUsize (n : Int) = n := by
  rw [intToUsize]
  omega

theorem setPageBytes_length (p : List Nat) (off : Nat) (b : List Nat)
    (p2 : List Nat) (h : setPageBytes p off b = some p2) :
    p2.length = p.length := by
  rw [setPageBytes] at h
  split at h
  · next hle =>
    cases h
    simp [List.length_append, List.length_take, List.length_drop]
    omega
  · cases h

theorem setPageBytes_spec (p : List Nat) (off : Nat) (b : List Nat)
    (h : off + b.length ≤ p.length) :
    setPageBytes p off b = some (p.take off ++ b ++ p.drop (off + b.length)) := by
  rw [setPageBytes, if_pos h]

/-- Reading l bytes at offset off + k out of a page whose bytes at offset off
were just overwritten by b returns the corresponding slice of b. -/
theorem written_slice (p : List Nat) (off : Nat) (b : List Nat)
    (h : off + b.length ≤ p.length) (k l : Nat) (hkl : k + l ≤ b.length) :
    ((p.take off ++ b ++ p.drop (off + b.length)).drop (off + k)).take l
      = (b.drop k).take l := by
  have h1 : (p.take off).length = off := by
    simp only [List.length_take]
    omega
  rw [List.append_assoc, show off + k = (p.take off).length + k from by omega,
    List.drop_append, List.drop_append_of_le_length (by omega),
    List.take_append_of_le_length (by simp only [List.length_drop]; omega)]

theorem pageSetI32_roundtrip (p : List Nat) (off : Nat) (v : Int)
    (hv1 : -(2 ^ 31) ≤ v) (hv2 : v < 2 ^ 31) (h : off + 4 ≤ p.length) :
    ∃ p2, pageSetI32 p off v = some p2 ∧ pageGetI32 p2 off = some v ∧
      p2.length = p.length := by
  have hb : (encodeI32 v).length = 4 := rfl
  have hle : off + (encodeI32 v).length ≤ p.length := by omega
  refine ⟨_, by rw [pageSetI32, setPageBytes_spec p off _ hle], ?_, ?_⟩
  · rw [pageGetI32, if_pos]
    · have hs := written_slice p off (encodeI32 v) hle 0 4 (by omega)
      rw [Nat.add_zero] at hs
      simp only [encodeI32_length] at hs ⊢
      rw [hs]
      simp only [List.drop_zero]
      rw [List.take_of_length_le (by omega), decodeI32_encodeI32 v hv1 hv2]
    · simp only [List.length_append, List.length_take, List.length_drop,
        encodeI32_length]
      omega
  · simp only [List.length_append, List.length_take, List.length_drop,
      encodeI32_length]
    omega

theorem pageSetBytes_roundtrip (p : List Nat) (off : Nat) (b : List Nat)
    (h : off + 4 + b.length ≤ p.length) (hp : p.length < 2 ^ 31) :
    ∃ p2, pageSetBytes p off b = some p2 ∧ pageGetBytes p2 off = some b ∧
      p2.length = p.length := by
  have hblen : (bytesToPage b).length = 4 + b.length := by
    simp only [bytesToPage, List.length_append, encodeI32_length]
  have hle : off + (bytesToPage b).length ≤ p.length := by omega
  have hlen2 : (p.take off ++ bytesToPage b ++
      p.drop (off + (bytesToPage b).length)).length = p.length := by
    simp only [List.length_append, List.length_take, List.length_drop]
    omega
  have hb31 : b.length < 2 ^ 31 := by omega
  refine ⟨_, by rw [pageSetBytes, setPageBytes_spec p off _ hle], ?_, hlen2⟩
  have hget : pageGetI32 (p.take off ++ bytesToPage b ++
      p.drop (off + (bytesToPage b).length)) off = some ((b.length : Nat) : Int) := by
    rw [pageGetI32, if_pos (by omega)]
    have hs := written_slice p off (bytesToPage b) hle 0 4 (by omega)
    rw [Nat.add_zero] at hs
    rw [hs]
    simp only [List.drop_zero]
    have htake : (bytesToPage b).take 4 = encodeI32 (b.length : Int) := by
      rw [bytesToPage, ← encodeI32_length (b.length : Int), List.take_left]
    rw [htake, decodeI32_encodeI32 _ (by omega) (by omega)]
  rw [pageGetBytes, hget]
  simp only [Option.some_bind]
  rw [intToUsize_ofNat b.length (by omega), if_pos (by omega)]
  have hs := written_slice p off (bytesToPage b) hle 4 b.length (by omega)
  have hd : (bytesToPage b).drop 4 = b := by
    rw [bytesToPage, ← encodeI32_length (b.length : Int), List.drop_left]
  rw [hs, hd, List.take_of_length_le (by omega)]

/-- C8: for every page, offset and value whose encoding fits, set followed by
get returns the value, for i32, bytes and strings (strings modelled by their
UTF-8 bytes); every access whose offset plus needed bytes exceeds the page
length fails with BufferSizeExceeded (modelled as none), and a successful set
never changes the page's length (the page is never resized). -/
theorem c8_page_roundtrip_and_bounds (p : List Nat) (off : Nat)
    (hp : p.length < 2 ^ 31) :
    (∀ v : Int, -(2 ^ 31) ≤ v → v < 2 ^ 31 → off + 4 ≤ p.length →
      ∃ p2, pageSetI32 p off v = some p2 ∧ pageGetI32 p2 off = some v ∧
        p2.length = p.length) ∧
    (∀ b : List Nat, off + 4 + b.length ≤ p.length →
      ∃ p2, pageSetBytes p off b = some p2 ∧ pageGetBytes p2 off = some b ∧
        p2.length = p.length) ∧
    (∀ s : List Nat, off + 4 + s.length ≤ p.length →
      ∃ p2, pageSetString p off s = some p2 ∧ pageGetString p2 off = some s ∧
        p2.length = p.length) ∧
    (p.length < off + 4 → pageGetI32 p off = none) ∧
    (∀ v : Int, p.length < off + 4 → pageSetI32 p off v = none) ∧
    (∀ b : List Nat, p.length < off + 4 + b.length → pageSetBytes p off b = none) ∧
    (∀ len : Int, pageGetI32 p off = some len →
      p.length < off + 4 + intToUsize len → pageGetBytes p off = none) := by
  refine ⟨fun v hv1 hv2 h => pageSetI32_roundtrip p off v hv1 hv2 h,
    fun b h => pageSetBytes_roundtrip p off b h hp,
    fun s h => pageSetBytes_roundtrip p off s h hp,
    fun h => by rw [pageGetI32, if_neg (by omega)],
    fun v h => by
      rw [pageSetI32, setPageBytes, if_neg (by rw [encodeI32_length]; omega)],
    fun b h => by
      rw [pageSetBytes, setPageBytes, if_neg ?_]
      simp only [bytesToPage, List.length_append, encodeI32_length]
      omega,
    fun len hlen h => by
      rw [pageGetBytes, hlen]
      simp only [Option.some_bind]
      rw [if_neg (by omega)]⟩

/-- Witness for C8 at a concrete page of 16 zero bytes and offset 3. -/
theorem c8_page_roundtrip_and_bounds_witness :
    (∃ p2, pageSetI32 (List.replicate 16 0) 3 (-5) = some p2 ∧
      pageGetI32 p2 3 = some (-5) ∧ p2.length = (List.replicate 16 0).length) ∧
    (∃ p2, pageSetBytes (List.replicate 16 0) 3 [7, 8] = some p2 ∧
      pageGetBytes p2 3 = some [7, 8] ∧ p2.length = (List.replicate 16 0).length) ∧
    pageGetI32 (List.replicate 16 0) 13 = none := by
  have h := c8_page_roundtrip_and_bounds (List.replicate 16 0) 3 (by decide)
  have h13 := c8_page_roundtrip_and_bounds (List.replicate 16 0) 13 (by decide)
  exact ⟨h.1 (-5) (by decide) (by decide) (by decide),
    h.2.1 [7, 8] (by decide),
    h13.2.2.2.1 (by decide)⟩

/-!
Log manager (log/manager.rs) and log iterator (log/iterator.rs).

The log file is only ever written and read in whole blocks of blocksize
bytes (FileMgr::write of a full page at block offsets, FileMgr::append of a
zero block), so the log file is modelled as the list of its blocks:
FileMgr::length is the block count, write at a block index replaces that
block's bytes, append adds one zero block at the end.
-/

/-- A zero-filled page, as produced by Page::new_from_size. -/
def zeroPage (B : Nat) : List Nat :=
  List.replicate B 0

/-- Model of FileMgr::read of one whole existing block into a fresh page. -/
def fmReadBlock (B : Nat) (disk : List (List Nat)) (n : Nat) : List Nat :=
  disk.getD n (zeroPage B)

/-- State of LogMgr (log/manager.rs): the log file contents, the in-memory
log page, the current block number, and the two LSN counters. -/
structure LogMgr where
  disk : List (List Nat)
  logpage : List Nat
  current_blk : Nat
  latest_lsn : Nat
  last_saved_lsn : Nat
  deriving Repr, DecidableEq

/-- Model of LogMgr::new on an empty log file: append one zero block, set its
boundary word to blocksize, write it out. -/
def freshLog (B : Nat) : Option LogMgr :=
  (pageSetI32 (zeroPage B) 0 (B : Int)).map fun lp =>
    { disk := [lp], logpage := lp, current_blk := 0,
      latest_lsn := 0, last_saved_lsn := 0 }

/-- Model of LogMgr::flush_to_fm: write the log page to the current block and
record that everything appended so far has been saved. -/
def flushToFm (s : LogMgr) : LogMgr :=
  { s with disk := s.disk.set s.current_blk s.logpage,
           last_saved_lsn := s.latest_lsn }

/-- Model of LogMgr::flush(lsn): flush to the file manager only when
lsn > last_saved_lsn. -/
def lmFlush (s : LogMgr) (lsn : Nat) : LogMgr :=
  if s.last_saved_lsn < lsn then flushToFm s else s

/-- Model of LogMgr::append_newblk: FileMgr::append a fresh block, reset the
log page boundary word to blocksize, write the page to the new block. -/
def appendNewblk (B : Nat) (s : LogMgr) : Option (LogMgr × Nat) :=
  let blk := s.disk.length
  (pageSetI32 s.logpage 0 (B : Int)).map fun lp =>
    ({ s with disk := (s.disk ++ [zeroPage B]).set blk lp, logpage := lp }, blk)

/-- Model of LogMgr::append: read the boundary word; if the record (with its
4-byte length prefix) does not fit above offset 4, flush and start a new
block; place the record at boundary - (4 + len), update the boundary word,
bump latest_lsn — and return last_saved_lsn (the value the Rust code
returns). -/
def lmAppend (B : Nat) (s : LogMgr) (rec : List Nat) :
    Option (LogMgr × Nat) := do
  let boundary ← pageGetI32 s.logpage 0
  let bytes_needed : Int := (rec.length : Int) + 4
  let (s1, boundary1) ←
    if boundary - bytes_needed < 4 then do
      let sflushed := flushToFm s
      let (s2, blk) ← appendNewblk B sflushed
      let s3 := { s2 with current_blk := blk }
      let b ← pageGetI32 s3.logpage 0
      pure (s3, b)
    else pure (s, boundary)
  let recpos := intToUsize (boundary1 - bytes_needed)
  let lp1 ← setPageBytes s1.logpage recpos (bytesToPage rec)
  let lp2 ← pageSetI32 lp1 0 (recpos : Int)
  pure ({ s1 with logpage := lp2, latest_lsn := s1.latest_lsn + 1 },
    s1.last_saved_lsn)

/-- Sequence of LogMgr::append calls, keeping only the final state. -/
def appendAll (B : Nat) (s : LogMgr) : List (List Nat) → Option LogMgr
  | [] => some s
  | r :: rs => (lmAppend B s r).bind fun p => appendAll B p.1 rs

/-- State of LogIterator (log/iterator.rs). -/
structure LogIter where
  disk : List (List Nat)
  blk : Nat
  p : List Nat
  pos : Nat
  deriving Repr, DecidableEq

/-- Model of LogIterator::new: read the block, start at its boundary. -/
def logIterNew (B : Nat) (disk : List (List Nat)) (blk : Nat) :
    Option LogIter :=
  let p := fmReadBlock B disk blk
  (pageGetI32 p 0).map fun bd =>
    { disk := disk, blk := blk, p := p, pos := intToUsize bd }

/-- Model of LogIterator::has_next. -/
def iterHasNext (B : Nat) (it : LogIter) : Prop :=
  it.pos < B ∨ 0 < it.blk

instance (B : Nat) (it : LogIter) : Decidable (iterHasNext B it) := by
  rw [iterHasNext]
  infer_instance

/-- Model of LogIterator::next: when the position reached blocksize, move to
the previous block and restart at its boundary; then read the
length-prefixed record at the position and advance past it. -/
def iterNext (B : Nat) (it : LogIter) : Option (List Nat × LogIter) :=
  if iterHasNext B it then
    (if it.pos = B then
      let p2 := fmReadBlock B it.disk (it.blk - 1)
      (pageGetI32 p2 0).map fun bd =>
        { it with blk := it.blk - 1, p := p2, pos := intToUsize bd }
    else some it).bind fun it1 =>
      (pageGetBytes it1.p it1.pos).map fun rec =>
        (rec, { it1 with pos := it1.pos + 4 + rec.length })
  else none

/-- Collect the records yielded by repeatedly calling LogIterator::next,
with an explicit fuel bound. -/
def iterCollect (B : Nat) : Nat → LogIter → List (List Nat)
  | 0, _ => []
  | fuel + 1, it =>
    match iterNext B it with
    | none => []
    | some (rec, it2) => rec :: iterCollect B fuel it2

/-- Model of LogMgr::iterator: flush to the file manager, then iterate from
the current block. -/
def lmIterator (B : Nat) (s : LogMgr) : Option (LogMgr × LogIter) :=
  let s2 := flushToFm s
  (logIterNew B s2.disk s2.current_blk).map fun it => (s2, it)

/-!  Layout invariant of a log block and the representation invariant of a
LogMgr state, used to prove the iterator ordering claims. -/

/-- Concatenated length-prefixed encodings of the records of one block,
newest record first (at the lowest offset, which is the block's boundary). -/
def encRecs : List (List Nat) → List Nat
  | [] => []
  | r :: rs => bytesToPage r ++ encRecs rs

/-- A page holds exactly the given records (newest first) above its boundary
word, with arbitrary junk bytes in between. -/
def WFPage (B : Nat) (p : List Nat) (rs : List (List Nat)) : Prop :=
  ∃ junk : List Nat, p = natToBe4 (4 + junk.length) ++ junk ++ encRecs rs ∧
    4 + junk.length + (encRecs rs).length = B

/-- Total number of records in a list of blocks. -/
def countRecs (bs : List (List (List Nat))) : Nat :=
  (bs.map List.length).sum

/-- Records of a list of blocks in newest-first reading order: the newest
block (last element) first, each block already newest-first. -/
def joinRev : List (List (List Nat)) → List (List Nat)
  | [] => []
  | b :: bs => joinRev bs ++ b

/-- Representation invariant tying a LogMgr state to the per-block record
lists: front are the filled-up blocks (oldest first), lastB the records of
the current block (newest first), and ftail the records of the current block
that have already been written to the file (the oldest ones). -/
structure LogRep (B : Nat) (s : LogMgr) (front : List (List (List Nat)))
    (lastB ftail : List (List Nat)) : Prop where
  hcur : s.current_blk = front.length
  hdisklen : s.disk.length = front.length + 1
  hdiskwf : ∀ i, i < front.length → WFPage B (s.disk.getD i []) (front.getD i [])
  hblockne : ∀ b ∈ front, b ≠ []
  hlastwf : WFPage B s.logpage lastB
  hftail : ∃ pre, lastB = pre ++ ftail
  hdlast : WFPage B (s.disk.getD front.length []) ftail
  hlatest : s.latest_lsn = countRecs front + lastB.length
  hsaved : s.last_saved_lsn = countRecs front + ftail.length
  hfitf : ∀ b ∈ front, ∀ r ∈ b, r.length + 8 ≤ B
  hfitl : ∀ r ∈ lastB, r.length + 8 ≤ B

theorem getD_set_eq {α : Type} (l : List α) (i : Nat) (v d : α)
    (h : i < l.length) : (l.set i v).getD i d = v := by
  rw [List.getD_eq_getElem?_getD, List.getElem?_set_self h]
  rfl

theorem getD_set_ne {α : Type} (l : List α) (i j : Nat) (v d : α)
    (h : j ≠ i) : (l.set i v).getD j d = l.getD j d := by
  rw [List.getD_eq_getElem?_getD, List.getElem?_set_ne (Ne.symm h),
    List.getD_eq_getElem?_getD]

theorem getD_append_lt {α : Type} (xs ys : List α) (i : Nat) (d : α)
    (h : i < xs.length) : (xs ++ ys).getD i d = xs.getD i d := by
  rw [List.getD_eq_getElem?_getD, List.getElem?_append_left h,
    List.getD_eq_getElem?_getD]

theorem getD_append_at {α : Type} (xs : List α) (y d : α) :
    (xs ++ [y]).getD xs.length d = y := by
  rw [List.getD_eq_getElem?_getD, List.getElem?_append_right (by omega)]
  simp

theorem countRecs_append_one (xs : List (List (List Nat)))
    (y : List (List Nat)) : countRecs (xs ++ [y]) = countRecs xs + y.length := by
  simp [countRecs]

theorem joinRev_append_one (xs : List (List (List Nat)))
    (y : List (List Nat)) : joinRev (xs ++ [y]) = y ++ joinRev xs := by
  induction xs with
  | nil => simp [joinRev]
  | cons x xs ih => simp [joinRev, ih, List.append_assoc]

theorem joinRev_length (bs : List (List (List Nat))) :
    (joinRev bs).length = countRecs bs := by
  induction bs with
  | nil => rfl
  | cons b bs ih => simp [joinRev, countRecs, List.length_append, ih]; omega

theorem encRecs_cons_length (r : List Nat) (rs : List (List Nat)) :
    (encRecs (r :: rs)).length = 4 + r.length + (encRecs rs).length := by
  simp only [encRecs, List.length_append, bytesToPage, encodeI32_length]

theorem WFPage_length (B : Nat) (p : List Nat) (rs : List (List Nat))
    (hwf : WFPage B p rs) : p.length = B := by
  obtain ⟨junk, hp, hlen⟩ := hwf
  subst hp
  simp only [List.length_append, natToBe4_length]
  omega

theorem WFPage_getI32 (B : Nat) (p : List Nat) (rs : List (List Nat))
    (hwf : WFPage B p rs) (hB31 : B < 2 ^ 31) :
    pageGetI32 p 0 = some ((B - (encRecs rs).length : Nat) : Int) := by
  obtain ⟨junk, hp, hlen⟩ := hwf
  have h4 : (natToBe4 (4 + junk.length)).length = 4 := natToBe4_length _
  subst hp
  rw [pageGetI32, if_pos (by simp only [List.length_append, natToBe4_length]; omega)]
  rw [List.drop_zero, List.append_assoc,
    List.take_append_of_le_length (by omega),
    List.take_of_length_le (by omega),
    decodeI32_natToBe4 _ (by omega)]
  congr 1
  omega

theorem setPageBytes_exact (x y z b : List Nat) (hy : y.length = b.length) :
    setPageBytes (x ++ y ++ z) x.length b = some (x ++ b ++ z) := by
  have h1 : (x ++ y ++ z).take x.length = x := by
    rw [List.append_assoc, List.take_left]
  have h2 : (x ++ y ++ z).drop (x.length + b.length) = z := by
    rw [List.append_assoc, show x.length + b.length = x.length + y.length from by
      omega, List.drop_append, List.drop_left]
  rw [setPageBytes, if_pos (by simp only [List.length_append]; omega), h1, h2]

/-- Placing one record at boundary - (4 + len) and rewriting the boundary
word turns a well-formed page for rs (junk split as jk ++ jo, where jo is
the part the record and its length prefix overwrite) into a well-formed
page for r :: rs. -/
theorem appendIntoPage (jk jo r : List Nat) (rs : List (List Nat))
    (hOlen : jo.length = 4 + r.length) (hsz : 4 + jk.length < 2 ^ 31) :
    ∃ mid, setPageBytes
        (natToBe4 (4 + (jk ++ jo).length) ++ (jk ++ jo) ++ encRecs rs)
        (4 + jk.length) (bytesToPage r) = some mid ∧
      pageSetI32 mid 0 ((4 + jk.length : Nat) : Int)
        = some (natToBe4 (4 + jk.length) ++ jk ++ encRecs (r :: rs)) := by
  have hbp : (bytesToPage r).length = 4 + r.length := by
    simp only [bytesToPage, List.length_append, encodeI32_length]
  have e1 : setPageBytes
      (natToBe4 (4 + (jk ++ jo).length) ++ (jk ++ jo) ++ encRecs rs)
      (4 + jk.length) (bytesToPage r)
      = some (natToBe4 (4 + (jk ++ jo).length) ++ jk
          ++ (bytesToPage r ++ encRecs rs)) := by
    have h := setPageBytes_exact (natToBe4 (4 + (jk ++ jo).length) ++ jk) jo
      (encRecs rs) (bytesToPage r) (by omega)
    have hx : (natToBe4 (4 + (jk ++ jo).length) ++ jk).length = 4 + jk.length := by
      simp only [List.length_append, natToBe4_length]
    rw [hx] at h
    simpa [List.append_assoc] using h
  have e2 : pageSetI32
      (natToBe4 (4 + (jk ++ jo).length) ++ jk ++ (bytesToPage r ++ encRecs rs))
      0 ((4 + jk.length : Nat) : Int)
      = some (natToBe4 (4 + jk.length) ++ jk ++ (bytesToPage r ++ encRecs rs)) := by
    rw [pageSetI32, show encodeI32 ((4 + jk.length : Nat) : Int)
      = natToBe4 (4 + jk.length) from by rw [encodeI32]; congr 1; omega]
    have h := setPageBytes_exact ([] : List Nat)
      (natToBe4 (4 + (jk ++ jo).length)) (jk ++ (bytesToPage r ++ encRecs rs))
      (natToBe4 (4 + jk.length)) (by rw [natToBe4_length, natToBe4_length])
    simpa [List.append_assoc] using h
  refine ⟨_, e1, ?_⟩
  rw [e2]
  simp [encRecs, List.append_assoc]

theorem flushToFm_logpage (s : LogMgr) : (flushToFm s).logpage = s.logpage := rfl

theorem flushToFm_disk (s : LogMgr) :
    (flushToFm s).disk = s.disk.set s.current_blk s.logpage := rfl

/-- Resetting the boundary word of a well-formed page to blocksize yields a
well-formed page holding no records (the old bytes become junk). -/
theorem resetBoundary (junk : List Nat) (rs : List (List Nat)) (B : Nat)
    (hB31 : B < 2 ^ 31) :
    pageSetI32 (natToBe4 (4 + junk.length) ++ junk ++ encRecs rs) 0
      ((B : Nat) : Int) = some (natToBe4 B ++ (junk ++ encRecs rs)) := by
  rw [pageSetI32, show encodeI32 ((B : Nat) : Int) = natToBe4 B from by
    rw [encodeI32]; congr 1; omega]
  have h := setPageBytes_exact ([] : List Nat) (natToBe4 (4 + junk.length))
    (junk ++ encRecs rs) (natToBe4 B) (by rw [natToBe4_length, natToBe4_length])
  simpa [List.append_assoc] using h

/-- LogMgr::append preserves the representation invariant and pushes the new
record at the front of the newest-first record list. -/
theorem lmAppend_rep (B : Nat) (hB : 8 ≤ B) (hB31 : B < 2 ^ 31)
    (s : LogMgr) (front : List (List (List Nat))) (lastB ftail : List (List Nat))
    (hrep : LogRep B s front lastB ftail)
    (r : List Nat) (hr : r.length + 8 ≤ B) :
    ∃ s2 lsn front2 lastB2 ftail2,
      lmAppend B s r = some (s2, lsn) ∧
      LogRep B s2 front2 lastB2 ftail2 ∧
      lastB2 ++ joinRev front2 = r :: (lastB ++ joinRev front) ∧
      s2.latest_lsn = s.latest_lsn + 1 := by
  obtain ⟨junk, hlp, hlen⟩ := hrep.hlastwf
  have hbd : pageGetI32 s.logpage 0
      = some ((B - (encRecs lastB).length : Nat) : Int) :=
    WFPage_getI32 B s.logpage lastB ⟨junk, hlp, hlen⟩ hB31
  by_cases hfits : (encRecs lastB).length + r.length + 8 ≤ B
  · -- the record fits in the current block
    have hcond : ¬ (((B - (encRecs lastB).length : Nat) : Int)
        - ((r.length : Int) + 4) < 4) := by
      omega
    set jk := junk.take (junk.length - (4 + r.length)) with hjkdef
    set jo := junk.drop (junk.length - (4 + r.length)) with hjodef
    have hsplit : junk = jk ++ jo := (List.take_append_drop _ _).symm
    have hjkl : jk.length = junk.length - (4 + r.length) := by
      rw [hjkdef]
      simp only [List.length_take]
      omega
    have hjol : jo.length = 4 + r.length := by
      rw [hjodef]
      simp only [List.length_drop]
      omega
    obtain ⟨mid, e1, e2⟩ := appendIntoPage jk jo r lastB hjol (by omega)
    have hlp2 : s.logpage
        = natToBe4 (4 + (jk ++ jo).length) ++ (jk ++ jo) ++ encRecs lastB := by
      rw [hlp, ← hsplit]
    have hrecpos : intToUsize (((B - (encRecs lastB).length : Nat) : Int)
        - ((r.length : Int) + 4)) = 4 + jk.length := by
      rw [show (((B - (encRecs lastB).length : Nat) : Int) - ((r.length : Int) + 4))
        = ((4 + jk.length : Nat) : Int) from by push_cast; omega]
      exact intToUsize_ofNat _ (by omega)
    have happ : lmAppend B s r
        = some ({ s with
            logpage := natToBe4 (4 + jk.length) ++ jk ++ encRecs (r :: lastB),
            latest_lsn := s.latest_lsn + 1 }, s.last_saved_lsn) := by
      rw [lmAppend, hbd]
      simp only [Option.bind_eq_bind, Option.some_bind]
      rw [if_neg hcond]
      simp only [Option.bind_eq_bind, Option.some_bind, Option.pure_def]
      rw [hrecpos, hlp2, e1]
      simp only [Option.bind_eq_bind, Option.some_bind]
      rw [e2]
      simp only [Option.some_bind]
    refine ⟨_, _, front, r :: lastB, ftail, happ, ?_, ?_, rfl⟩
    · refine ⟨hrep.hcur, hrep.hdisklen, hrep.hdiskwf, hrep.hblockne, ?_, ?_,
        hrep.hdlast, ?_, hrep.hsaved, hrep.hfitf, ?_⟩
      · refine ⟨jk, rfl, ?_⟩
        have := encRecs_cons_length r lastB
        omega
      · obtain ⟨pre, hpre⟩ := hrep.hftail
        exact ⟨r :: pre, by rw [hpre, List.cons_append]⟩
      · have := hrep.hlatest
        simp only [List.length_cons]
        omega
      · intro x hx
        rcases List.mem_cons.mp hx with h1 | h2
        · subst h1; exact hr
        · exact hrep.hfitl x h2
    · rw [List.cons_append]
  · -- overflow: flush, allocate a new block, place the record there
    have hcond : (((B - (encRecs lastB).length : Nat) : Int)
        - ((r.length : Int) + 4) < 4) := by
      omega
    have hlastne : lastB ≠ [] := by
      intro h
      subst h
      simp only [encRecs, List.length_nil] at hfits
      omega
    -- the flushed state and the fresh block
    have hreset : pageSetI32 s.logpage 0 ((B : Nat) : Int)
        = some (natToBe4 B ++ (junk ++ encRecs lastB)) := by
      rw [hlp]
      exact resetBoundary junk lastB B hB31
    have hlpnewwf : WFPage B (natToBe4 B ++ (junk ++ encRecs lastB)) [] := by
      refine ⟨junk ++ encRecs lastB, ?_, ?_⟩
      · simp only [encRecs, List.append_nil, List.length_append]
        rw [show 4 + (junk.length + (encRecs lastB).length) = B from by omega]
      · simp only [encRecs, List.length_append, List.length_nil]
        omega
    have hbd2 : pageGetI32 (natToBe4 B ++ (junk ++ encRecs lastB)) 0
        = some ((B - (encRecs ([] : List (List Nat))).length : Nat) : Int) :=
      WFPage_getI32 B _ _ hlpnewwf hB31
    set junkAll := junk ++ encRecs lastB with hjadefn
    set jk := junkAll.take (junkAll.length - (4 + r.length)) with hjkdef
    set jo := junkAll.drop (junkAll.length - (4 + r.length)) with hjodef
    have hjalen : junkAll.length = B - 4 := by
      rw [hjadefn]
      simp only [List.length_append]
      omega
    have hsplit : junkAll = jk ++ jo := (List.take_append_drop _ _).symm
    have hjkl : jk.length = junkAll.length - (4 + r.length) := by
      rw [hjkdef]
      simp only [List.length_take]
      omega
    have hjol : jo.length = 4 + r.length := by
      rw [hjodef]
      simp only [List.length_drop]
      omega
    obtain ⟨mid, e1, e2⟩ := appendIntoPage jk jo r [] hjol (by omega)
    have hlpnew2 : natToBe4 B ++ (junk ++ encRecs lastB)
        = natToBe4 (4 + (jk ++ jo).length) ++ (jk ++ jo)
          ++ encRecs ([] : List (List Nat)) := by
      rw [← hsplit, hjadefn]
      simp only [encRecs, List.append_nil, List.append_assoc]
      rw [show 4 + (junk ++ encRecs lastB).length = B from by
        simp only [List.length_append]; omega]
    have hrecpos : intToUsize (((B - (encRecs ([] : List (List Nat))).length : Nat)
        : Int) - ((r.length : Int) + 4)) = 4 + jk.length := by
      rw [show (((B - (encRecs ([] : List (List Nat))).length : Nat) : Int)
        - ((r.length : Int) + 4)) = ((4 + jk.length : Nat) : Int) from by
          simp only [encRecs, List.length_nil]
          push_cast
          omega]
      exact intToUsize_ofNat _ (by omega)
    have happ : lmAppend B s r
        = some ({ s with
            disk := ((s.disk.set s.current_blk s.logpage) ++ [zeroPage B]).set
              (s.disk.length) (natToBe4 B ++ (junk ++ encRecs lastB)),
            logpage := natToBe4 (4 + jk.length) ++ jk
              ++ encRecs ([r] : List (List Nat)),
            current_blk := s.disk.length,
            latest_lsn := s.latest_lsn + 1,
            last_saved_lsn := s.latest_lsn }, s.latest_lsn) := by
      rw [lmAppend, hbd]
      simp only [Option.bind_eq_bind, Option.some_bind]
      rw [if_pos hcond]
      simp only [appendNewblk, flushToFm, hreset, Option.map_some',
        Option.bind_eq_bind, Option.some_bind, List.length_set]
      rw [hbd2]
      simp only [Option.bind_eq_bind, Option.some_bind, Option.pure_def]
      rw [hrecpos, hlpnew2, e1]
      simp only [Option.bind_eq_bind, Option.some_bind]
      rw [e2]
      simp only [Option.bind_eq_bind, Option.some_bind]
    refine ⟨_, _, front ++ [lastB], [r], [], happ, ?_, ?_, rfl⟩
    · have hdl : s.disk.length = front.length + 1 := hrep.hdisklen
      have hcur : s.current_blk = front.length := hrep.hcur
      refine ⟨?_, ?_, ?_, ?_, ?_, ⟨[r], by simp⟩, ?_, ?_, ?_, ?_, ?_⟩
      · simp only [List.length_append, List.length_cons, List.length_nil]
        omega
      · simp only [List.length_set, List.length_append, List.length_cons,
          List.length_nil]
        omega
      · intro i hi
        simp only [List.length_append, List.length_cons, List.length_nil] at hi
        have hne1 : i ≠ s.disk.length := by omega
        rw [getD_set_ne _ _ _ _ _ hne1,
          getD_append_lt _ _ _ _ (by rw [List.length_set]; omega)]
        rcases Nat.lt_or_ge i front.length with hlt | hge
        · rw [getD_set_ne _ _ _ _ _ (by omega), getD_append_lt _ _ _ _ hlt]
          exact hrep.hdiskwf i hlt
        · have hieq : i = front.length := by omega
          subst hieq
          rw [hcur] at *
          rw [getD_set_eq _ _ _ _ (by omega), getD_append_at]
          exact ⟨junk, hlp, hlen⟩
      · intro b hb
        rcases List.mem_append.mp hb with h1 | h2
        · exact hrep.hblockne b h1
        · rw [List.mem_singleton.mp h2]
          exact hlastne
      · refine ⟨jk, rfl, ?_⟩
        have h1 := encRecs_cons_length r []
        have h2 : (encRecs ([] : List (List Nat))).length = 0 := rfl
        omega
      · rw [show (front ++ [lastB]).length = front.length + 1 from by
          simp, ← hdl]
        rw [getD_set_eq _ _ _ _ (by
          simp only [List.length_append, List.length_set, List.length_cons,
            List.length_nil]
          omega)]
        exact hlpnewwf
      · have := hrep.hlatest
        simp only [List.length_cons, List.length_nil, countRecs_append_one]
        omega
      · have := hrep.hlatest
        simp only [List.length_nil, countRecs_append_one]
        omega
      · intro b hb
        rcases List.mem_append.mp hb with h1 | h2
        · exact hrep.hfitf b h1
        · rw [List.mem_singleton.mp h2]
          exact hrep.hfitl
      · intro x hx
        rw [List.mem_singleton.mp hx]
        exact hr
    · rw [joinRev_append_one]
      simp

/-- The page written by LogMgr::new for an empty log: boundary word set to
blocksize over a zeroed page. -/
theorem WFPage_fresh (B : Nat) (hB : 8 ≤ B) :
    WFPage B (natToBe4 B ++ (zeroPage B).drop 4) [] := by
  refine ⟨(zeroPage B).drop 4, ?_, ?_⟩
  · simp only [encRecs, List.append_nil, List.length_drop, zeroPage,
      List.length_replicate]
    rw [show 4 + (B - 4) = B from by omega]
  · simp only [encRecs, List.length_nil, List.length_drop, zeroPage,
      List.length_replicate]
    omega

/-- LogMgr::new on an empty log file establishes the invariant with no
records at all. -/
theorem freshLog_rep (B : Nat) (hB : 8 ≤ B) (hB31 : B < 2 ^ 31) :
    ∃ s0, freshLog B = some s0 ∧ LogRep B s0 [] [] [] := by
  have hset : pageSetI32 (zeroPage B) 0 ((B : Nat) : Int)
      = some (natToBe4 B ++ (zeroPage B).drop 4) := by
    rw [pageSetI32, show encodeI32 ((B : Nat) : Int) = natToBe4 B from by
      rw [encodeI32]; congr 1; omega,
      setPageBytes_spec _ _ _ (by
        simp only [natToBe4_length, zeroPage, List.length_replicate]
        omega)]
    simp [natToBe4_length]
  refine ⟨_, by rw [freshLog, hset, Option.map_some'], ?_⟩
  have hwf := WFPage_fresh B hB
  refine ⟨rfl, rfl, ?_, ?_, hwf, ⟨[], rfl⟩, ?_, rfl, rfl, ?_, ?_⟩
  · intro i hi
    simp only [List.length_nil] at hi
    omega
  · intro b hb
    simp at hb
  · exact hwf
  · intro b hb
    simp at hb
  · intro x hx
    simp at hx

/-- Iterated appends preserve the invariant; the newest-first content is the
reverse of the appended sequence. -/
theorem appendAll_rep (B : Nat) (hB : 8 ≤ B) (hB31 : B < 2 ^ 31) :
    ∀ (recs : List (List Nat)) (s : LogMgr) (front : List (List (List Nat)))
      (lastB ftail : List (List Nat)),
      LogRep B s front lastB ftail →
      (∀ r ∈ recs, r.length + 8 ≤ B) →
      ∃ s2 front2 lastB2 ftail2,
        appendAll B s recs = some s2 ∧
        LogRep B s2 front2 lastB2 ftail2 ∧
        lastB2 ++ joinRev front2 = recs.reverse ++ (lastB ++ joinRev front) := by
  intro recs
  induction recs with
  | nil =>
    intro s front lastB ftail hrep hfit
    exact ⟨s, front, lastB, ftail, rfl, hrep, by simp⟩
  | cons r rs ih =>
    intro s front lastB ftail hrep hfit
    obtain ⟨s1, lsn, front1, lastB1, ftail1, happ, hrep1, hcontent, hlat⟩ :=
      lmAppend_rep B hB hB31 s front lastB ftail hrep r (hfit r (by simp))
    obtain ⟨s2, front2, lastB2, ftail2, happ2, hrep2, hcontent2⟩ :=
      ih s1 front1 lastB1 ftail1 hrep1 (fun x hx => hfit x (by simp [hx]))
    refine ⟨s2, front2, lastB2, ftail2, ?_, hrep2, ?_⟩
    · rw [appendAll, happ]
      simp only [Option.some_bind]
      exact happ2
    · rw [hcontent2, hcontent]
      simp [List.append_assoc]

/-- Reading the length-prefixed record that starts at the given position. -/
theorem pageGetBytes_at (B : Nat) (_hB31 : B < 2 ^ 31) (pre r tail : List Nat)
    (hlen : (pre ++ (bytesToPage r ++ tail)).length = B)
    (hr31 : r.length < 2 ^ 31) :
    pageGetBytes (pre ++ (bytesToPage r ++ tail)) pre.length = some r := by
  have hbp : (bytesToPage r).length = 4 + r.length := by
    simp only [bytesToPage, List.length_append, encodeI32_length]
  have hlen2 : pre.length + (4 + r.length) + tail.length = B := by
    simp only [List.length_append] at hlen
    omega
  have hg32 : pageGetI32 (pre ++ (bytesToPage r ++ tail)) pre.length
      = some ((r.length : Nat) : Int) := by
    rw [pageGetI32, if_pos (by rw [hlen]; omega), List.drop_left]
    rw [bytesToPage, List.append_assoc,
      List.take_append_of_le_length (by rw [encodeI32_length]),
      List.take_of_length_le (by rw [encodeI32_length]),
      decodeI32_encodeI32 _ (by omega) (by omega)]
  rw [pageGetBytes, hg32, Option.some_bind, intToUsize_ofNat _ (by omega),
    if_pos (by rw [hlen]; omega)]
  congr 1
  have hre : pre ++ (bytesToPage r ++ tail)
      = (pre ++ encodeI32 (r.length : Int)) ++ (r ++ tail) := by
    simp [bytesToPage, List.append_assoc]
  rw [hre, show pre.length + 4 = (pre ++ encodeI32 ((r.length : Nat) : Int)).length
      from by simp [encodeI32_length], List.drop_left, List.take_left]

/-- One LogIterator::next step in the middle of a block. -/
theorem iterNext_read (B : Nat) (hB31 : B < 2 ^ 31) (d : List (List Nat))
    (blk : Nat) (pre r tail : List Nat)
    (hlen : (pre ++ (bytesToPage r ++ tail)).length = B)
    (hr31 : r.length < 2 ^ 31) :
    iterNext B ⟨d, blk, pre ++ (bytesToPage r ++ tail), pre.length⟩
      = some (r, ⟨d, blk, pre ++ (bytesToPage r ++ tail),
          pre.length + 4 + r.length⟩) := by
  have hbp : (bytesToPage r).length = 4 + r.length := by
    simp only [bytesToPage, List.length_append, encodeI32_length]
  have hlen2 : pre.length + (4 + r.length) + tail.length = B := by
    simp only [List.length_append] at hlen
    omega
  have hposlt : pre.length < B := by omega
  simp only [iterNext, iterHasNext]
  rw [if_pos (Or.inl hposlt : pre.length < B ∨ 0 < blk),
    if_neg (by omega : ¬ pre.length = B)]
  simp only [Option.some_bind]
  rw [pageGetBytes_at B hB31 pre r tail hlen hr31, Option.map_some']

/-- One LogIterator::next step at the end of a block: move to the previous
block and immediately read its newest record. -/
theorem iterNext_switch (B : Nat) (hB : 8 ≤ B) (hB31 : B < 2 ^ 31)
    (d : List (List Nat)) (bi : Nat) (p : List Nat) (r : List Nat)
    (rest : List (List Nat))
    (hwf : WFPage B (d.getD bi (zeroPage B)) (r :: rest))
    (hr31 : r.length < 2 ^ 31) :
    iterNext B ⟨d, bi + 1, p, B⟩
      = some (r, ⟨d, bi, d.getD bi (zeroPage B),
          (B - (encRecs (r :: rest)).length) + 4 + r.length⟩) := by
  have hbdrd : pageGetI32 (d.getD bi (zeroPage B)) 0
      = some ((B - (encRecs (r :: rest)).length : Nat) : Int) :=
    WFPage_getI32 B _ _ hwf hB31
  obtain ⟨junk, hp, hlenw⟩ := hwf
  have hrecl := encRecs_cons_length r rest
  simp only [iterNext, iterHasNext, if_true]
  rw [if_pos (show B < B ∨ 0 < bi + 1 from Or.inr (by omega))]
  simp only [show bi + 1 - 1 = bi from rfl, fmReadBlock, hbdrd,
    Option.map_some', Option.some_bind]
  rw [intToUsize_ofNat _ (by omega)]
  have hshape : d.getD bi (zeroPage B)
      = (natToBe4 (4 + junk.length) ++ junk)
        ++ (bytesToPage r ++ encRecs rest) := by
    rw [hp]
    simp [encRecs, List.append_assoc]
  have hprelen : (natToBe4 (4 + junk.length) ++ junk).length
      = B - (encRecs (r :: rest)).length := by
    simp only [List.length_append, natToBe4_length]
    omega
  rw [show B - (encRecs (r :: rest)).length
      = (natToBe4 (4 + junk.length) ++ junk).length from hprelen.symm]
  conv in pageGetBytes _ _ => rw [hshape]
  rw [pageGetBytes_at B hB31 _ r (encRecs rest)
    (by rw [← hshape]; exact WFPage_length B _ _ ⟨junk, hp, hlenw⟩) hr31,
    Option.map_some']

/-- Once the iterator has exhausted block 0 it yields nothing. -/
theorem iterCollect_zero (B : Nat) (d : List (List Nat)) (p : List Nat)
    (f : Nat) : iterCollect B f ⟨d, 0, p, B⟩ = [] := by
  cases f with
  | zero => rfl
  | succ n =>
    have hnone : iterNext B (⟨d, 0, p, B⟩ : LogIter) = none := by
      rw [iterNext, if_neg]
      intro h
      rcases h with h | h
      · have h2 : B < B := h
        omega
      · have h2 : (0 : Nat) < 0 := h
        omega
    rw [iterCollect, hnone]

theorem iterCollect_cons (B f : Nat) (it : LogIter) (r : List Nat)
    (it2 : LogIter) (h : iterNext B it = some (r, it2)) :
    iterCollect B (f + 1) it = r :: iterCollect B f it2 := by
  rw [iterCollect, h]

theorem getD_default_eq {α : Type} (l : List α) (i : Nat) (d1 d2 : α)
    (h : i < l.length) : l.getD i d1 = l.getD i d2 := by
  rw [List.getD_eq_getElem?_getD, List.getD_eq_getElem?_getD,
    List.getElem?_eq_getElem h]
  rfl

/-- Iterating inside one block from a record boundary yields the remaining
records of the block and stops at the block end. -/
theorem iterCollect_inblock (B : Nat) (hB31 : B < 2 ^ 31) (d : List (List Nat))
    (blk : Nat) :
    ∀ (rs : List (List Nat)) (pre : List Nat) (f : Nat),
      (pre ++ encRecs rs).length = B →
      (∀ r ∈ rs, r.length + 8 ≤ B) →
      iterCollect B (rs.length + f) ⟨d, blk, pre ++ encRecs rs, pre.length⟩
        = rs ++ iterCollect B f ⟨d, blk, pre ++ encRecs rs, B⟩ := by
  intro rs
  induction rs with
  | nil =>
    intro pre f hlen hfit
    have hpre : pre.length = B := by
      simpa [encRecs] using hlen
    simp only [encRecs, List.append_nil, List.length_nil, Nat.zero_add,
      List.nil_append] at *
    rw [hpre]
  | cons r rest ih =>
    intro pre f hlen hfit
    have hr31 : r.length < 2 ^ 31 := by
      have := hfit r (by simp)
      omega
    have hshape : pre ++ encRecs (r :: rest)
        = pre ++ (bytesToPage r ++ encRecs rest) := by
      simp [encRecs]
    have hlen2 : (pre ++ (bytesToPage r ++ encRecs rest)).length = B := by
      rw [← hshape]
      exact hlen
    have hnext := iterNext_read B hB31 d blk pre r (encRecs rest) hlen2 hr31
    have hfuel : (r :: rest).length + f = (rest.length + f) + 1 := by
      simp only [List.length_cons]
      omega
    rw [hfuel, hshape, iterCollect_cons B _ _ _ _ hnext]
    have hre : pre ++ (bytesToPage r ++ encRecs rest)
        = (pre ++ bytesToPage r) ++ encRecs rest := by
      simp [List.append_assoc]
    have hpos : pre.length + 4 + r.length = (pre ++ bytesToPage r).length := by
      simp only [List.length_append, bytesToPage, encodeI32_length]
      omega
    rw [hre, hpos, ih (pre ++ bytesToPage r) f (by rw [← hre]; exact hlen2)
      (fun x hx => hfit x (by simp [hx]))]
    simp

/-- Iterating from the top of block i over i well-formed nonempty blocks
yields exactly their records, newest block first. -/
theorem iterCollect_below (B : Nat) (hB : 8 ≤ B) (hB31 : B < 2 ^ 31)
    (d : List (List Nat)) (front : List (List (List Nat))) :
    ∀ (p : List Nat) (f : Nat),
      (∀ i, i < front.length →
        WFPage B (d.getD i (zeroPage B)) (front.getD i [])) →
      (∀ b ∈ front, b ≠ []) →
      (∀ b ∈ front, ∀ r ∈ b, r.length + 8 ≤ B) →
      iterCollect B (countRecs front + f) ⟨d, front.length, p, B⟩
        = joinRev front := by
  induction front using List.reverseRecOn with
  | nil =>
    intro p f _ _ _
    rw [show countRecs [] = 0 from rfl, Nat.zero_add,
      show (List.length ([] : List (List (List Nat)))) = 0 from rfl,
      iterCollect_zero]
    rfl
  | append_singleton front2 lb ih =>
    intro p f hwf hne hfit
    have hwflb : WFPage B (d.getD front2.length (zeroPage B)) lb := by
      have h := hwf front2.length (by simp)
      rwa [getD_append_at] at h
    obtain ⟨r, rest, hlbeq⟩ : ∃ r rest, lb = r :: rest := by
      cases lb with
      | nil => exact absurd rfl (hne [] (by simp))
      | cons r rest => exact ⟨r, rest, rfl⟩
    subst hlbeq
    have hr31 : r.length < 2 ^ 31 := by
      have := hfit (r :: rest) (by simp) r (by simp)
      omega
    have hswitch := iterNext_switch B hB hB31 d front2.length p r rest hwflb hr31
    have hfuel : countRecs (front2 ++ [r :: rest]) + f
        = (rest.length + (countRecs front2 + f)) + 1 := by
      rw [countRecs_append_one]
      simp only [List.length_cons]
      omega
    rw [hfuel, show (front2 ++ [r :: rest]).length = front2.length + 1 from by
      simp, iterCollect_cons B _ _ _ _ hswitch]
    obtain ⟨junk, hpg, hlenw⟩ := hwflb
    have hrecl := encRecs_cons_length r rest
    have hposeq : (B - (encRecs (r :: rest)).length) + 4 + r.length
        = ((natToBe4 (4 + junk.length) ++ junk) ++ bytesToPage r).length := by
      simp only [List.length_append, natToBe4_length, bytesToPage,
        encodeI32_length]
      omega
    have hpageq : d.getD front2.length (zeroPage B)
        = ((natToBe4 (4 + junk.length) ++ junk) ++ bytesToPage r)
          ++ encRecs rest := by
      rw [hpg]
      simp [encRecs, List.append_assoc]
    have hpagelen : (((natToBe4 (4 + junk.length) ++ junk) ++ bytesToPage r)
        ++ encRecs rest).length = B := by
      rw [← hpageq]
      exact WFPage_length B _ _ ⟨junk, hpg, hlenw⟩
    rw [hposeq, hpageq, iterCollect_inblock B hB31 d front2.length rest _ _
      hpagelen (fun x hx => hfit (r :: rest) (by simp) x (by simp [hx]))]
    rw [ih _ f
      (fun i hi => by
        have h := hwf i (by simp; omega)
        rwa [getD_append_lt _ _ _ _ hi] at h)
      (fun b hb => hne b (List.mem_append_left _ hb))
      (fun b hb => hfit b (List.mem_append_left _ hb))]
    rw [joinRev_append_one]
    simp

/-- C7: after any sequence of successful appends starting from a fresh log,
iterator() yields exactly the appended records newest first, crossing block
boundaries down to block 0 (given enough fuel, and nothing afterwards). -/
theorem c7_log_iterator_lifo (B : Nat) (hB : 8 ≤ B) (hB31 : B < 2 ^ 31)
    (recs : List (List Nat)) (hfit : ∀ r ∈ recs, r.length + 8 ≤ B)
    (s0 sF : LogMgr) (h0 : freshLog B = some s0)
    (happ : appendAll B s0 recs = some sF) :
    ∃ s2 it, lmIterator B sF = some (s2, it) ∧
      ∀ extra, iterCollect B (recs.length + extra) it = recs.reverse := by
  obtain ⟨s0', h0', hrep0⟩ := freshLog_rep B hB hB31
  rw [h0'] at h0
  obtain rfl : s0' = s0 := Option.some.inj h0
  obtain ⟨s2, front, lastB, ftail, happ', hrep, hcontent⟩ :=
    appendAll_rep B hB hB31 recs s0' [] [] [] hrep0 hfit
  rw [happ'] at happ
  obtain rfl : s2 = sF := Option.some.inj happ
  rw [show joinRev [] = [] from rfl, List.append_nil, List.append_nil]
    at hcontent
  obtain ⟨junk, hlp, hlen⟩ := hrep.hlastwf
  have hcur := hrep.hcur
  have hdlen := hrep.hdisklen
  have hdget : (flushToFm s2).disk.getD (flushToFm s2).current_blk (zeroPage B)
      = s2.logpage := by
    simp only [flushToFm]
    exact getD_set_eq _ _ _ _ (by omega)
  have hinit : logIterNew B (flushToFm s2).disk (flushToFm s2).current_blk
      = some ⟨(flushToFm s2).disk, (flushToFm s2).current_blk, s2.logpage,
          B - (encRecs lastB).length⟩ := by
    rw [logIterNew]
    simp only [fmReadBlock]
    rw [hdget, WFPage_getI32 B _ _ ⟨junk, hlp, hlen⟩ hB31, Option.map_some',
      intToUsize_ofNat _ (by omega)]
  refine ⟨flushToFm s2, _,
    by rw [lmIterator, hinit, Option.map_some'], ?_⟩
  intro extra
  have hfuel : recs.length + extra = lastB.length + (countRecs front + extra) := by
    have h1 : (lastB ++ joinRev front).length = recs.length := by
      rw [hcontent, List.length_reverse]
    have h2 := joinRev_length front
    simp only [List.length_append] at h1
    omega
  have hpre : B - (encRecs lastB).length
      = (natToBe4 (4 + junk.length) ++ junk).length := by
    simp only [List.length_append, natToBe4_length]
    omega
  have hlplen : ((natToBe4 (4 + junk.length) ++ junk) ++ encRecs lastB).length
      = B := by
    rw [← hlp]
    exact WFPage_length B _ _ ⟨junk, hlp, hlen⟩
  rw [hfuel, hpre, hlp, iterCollect_inblock B hB31 _ _ lastB _ _ hlplen
    hrep.hfitl]
  rw [show (flushToFm s2).current_blk = front.length from hcur]
  rw [iterCollect_below B hB hB31 (flushToFm s2).disk front _ extra
    (fun i hi => by
      simp only [flushToFm]
      rw [getD_set_ne _ _ _ _ _ (by omega : i ≠ s2.current_blk),
        getD_default_eq s2.disk i (zeroPage B) [] (by omega)]
      exact hrep.hdiskwf i hi)
    hrep.hblockne hrep.hfitf]
  exact hcontent

/-- Witness for C7: blocksize 16, records [1,2] then [3]; the iterator
yields them newest first. -/
theorem c7_log_iterator_lifo_witness :
    ∃ s2 it,
      lmIterator 16
        { disk := [[0, 0, 0, 16, 0, 0, 0, 0, 0, 0, 0, 0, 0, 0, 0, 0]],
          logpage := [0, 0, 0, 5, 0, 0, 0, 0, 1, 3, 0, 0, 0, 2, 1, 2],
          current_blk := 0, latest_lsn := 2, last_saved_lsn := 0 }
        = some (s2, it) ∧
      ∀ extra, iterCollect 16 (2 + extra) it = [[3], [1, 2]] :=
  c7_log_iterator_lifo 16 (by decide) (by decide) [[1, 2], [3]] (by decide)
    { disk := [[0, 0, 0, 16, 0, 0, 0, 0, 0, 0, 0, 0, 0, 0, 0, 0]],
      logpage := [0, 0, 0, 16, 0, 0, 0, 0, 0, 0, 0, 0, 0, 0, 0, 0],
      current_blk := 0, latest_lsn := 0, last_saved_lsn := 0 }
    { disk := [[0, 0, 0, 16, 0, 0, 0, 0, 0, 0, 0, 0, 0, 0, 0, 0]],
      logpage := [0, 0, 0, 5, 0, 0, 0, 0, 1, 3, 0, 0, 0, 2, 1, 2],
      current_blk := 0, latest_lsn := 2, last_saved_lsn := 0 }
    (by decide) (by decide)

/-- C5: LogMgr::append increments latest_lsn but returns last_saved_lsn (the
Rust code returns self.last_saved_lsn), so on a fresh log the first append
makes latest_lsn 1 yet returns 0 — not the LSN of the appended record that
the spec requires.  This exhibits the divergence at a concrete input. -/
theorem c5_append_returns_stale_lsn :
    ∃ s0 s1 ret, freshLog 16 = some s0 ∧
      lmAppend 16 s0 [1, 2] = some (s1, ret) ∧
      s1.latest_lsn = 1 ∧ ret = s0.last_saved_lsn ∧ ret = 0 ∧
      ret ≠ s1.latest_lsn :=
  ⟨{ disk := [[0, 0, 0, 16, 0, 0, 0, 0, 0, 0, 0, 0, 0, 0, 0, 0]],
     logpage := [0, 0, 0, 16, 0, 0, 0, 0, 0, 0, 0, 0, 0, 0, 0, 0],
     current_blk := 0, latest_lsn := 0, last_saved_lsn := 0 },
   { disk := [[0, 0, 0, 16, 0, 0, 0, 0, 0, 0, 0, 0, 0, 0, 0, 0]],
     logpage := [0, 0, 0, 10, 0, 0, 0, 0, 0, 0, 0, 0, 0, 2, 1, 2],
     current_blk := 0, latest_lsn := 1, last_saved_lsn := 0 },
   0, by decide, by decide, by decide, by decide, by decide, by decide⟩

/-!
Buffer (buffer/buffer.rs) and BufferMgr (buffer/manager.rs).

A buffer frame holds one page, the block it is assigned to (the data file is
modelled as the list of its blocks; a write replaces the block), a pin
count, the modifying transaction number and the LSN of the latest
modification.  anyhow::Result errors are modelled by DbError.
-/

inductive DbError where
  | blockNotFound
  | lockFailed (s : String)
  | bufferAbort
  | bufferSizeExceeded
  deriving Repr, DecidableEq

structure Buffer where
  contents : List Nat
  blk : Option Nat
  pins : Nat
  txnum : Int
  lsn : Int
  deriving Repr, DecidableEq

/-- Model of Buffer::flush: if the frame was modified (txnum ≥ 0), first
LogMgr::flush up to the frame's LSN (cast i32 → u64), then FileMgr::write of
the page to the frame's block; a frame with no block yields BlockNotFound.
Returns the new frame, log state and data file. -/
def bufferFlush (b : Buffer) (lm : LogMgr) (dd : List (List Nat)) :
    Except DbError (Buffer × LogMgr × List (List Nat)) :=
  if 0 ≤ b.txnum then
    let lm2 := lmFlush lm (intToUsize b.lsn)
    match b.blk with
    | some blk =>
      .ok ({ b with txnum := -1 }, lm2, dd.set blk b.contents)
    | none => .error DbError.blockNotFound
  else .ok (b, lm, dd)

structure BufferMgr where
  bufferpool : List Buffer
  num_available : Nat
  deriving Repr, DecidableEq

/-- The loop of BufferMgr::flush_all: flush every frame whose modifying_tx
equals txnum; an error stops the loop (the ? operator), earlier flushes
keep their effects (the frames are shared RefCells). -/
def flushAllLoop (txnum : Int) :
    List Buffer → LogMgr → List (List Nat) →
      (List Buffer × LogMgr × List (List Nat) × Option DbError)
  | [], lm, dd => ([], lm, dd, none)
  | b :: rest, lm, dd =>
    if b.txnum = txnum then
      match bufferFlush b lm dd with
      | .error e => (b :: rest, lm, dd, some e)
      | .ok (b2, lm2, dd2) =>
        let (rest2, lm3, dd3, e) := flushAllLoop txnum rest lm2 dd2
        (b2 :: rest2, lm3, dd3, e)
    else
      let (rest2, lm3, dd3, e) := flushAllLoop txnum rest lm dd
      (b :: rest2, lm3, dd3, e)

/-- Model of BufferMgr::flush_all: run the loop; then — as the Rust code is
written — fall through to Err(LockFailed("available")) even when every
flush succeeded. -/
def flushAll (bm : BufferMgr) (txnum : Int) (lm : LogMgr)
    (dd : List (List Nat)) :
    BufferMgr × LogMgr × List (List Nat) × Except DbError Unit :=
  let (pool2, lm2, dd2, e) := flushAllLoop txnum bm.bufferpool lm dd
  ({ bm with bufferpool := pool2 }, lm2, dd2,
    match e with
    | some err => .error err
    | none => .error (DbError.lockFailed "available"))

/-!  Recovery manager commit path (tx/recovery/manager.rs and
tx/recovery/logrecord.rs). -/

/-- Model of CommitRecord::write_to_log's record construction: an 8-byte page
holding the COMMIT tag (2) and the transaction number. -/
def commitRecordBytes (txnum : Int) : Option (List Nat) :=
  (pageSetI32 (zeroPage 8) 0 2).bind fun p1 => pageSetI32 p1 4 txnum

/-- Model of CommitRecord::write_to_log: build the record and append it. -/
def commitWriteToLog (B : Nat) (lm : LogMgr) (txnum : Int) :
    Option (LogMgr × Nat) :=
  (commitRecordBytes txnum).bind fun rec => lmAppend B lm rec

/-- Model of RecoveryMgr::commit (the lock! macro body):
bm.flush_all(txnum)?; then append the COMMIT record; then
lm.flush(the returned lsn).  State changes made before an error persist
(shared RefCell state). -/
def rmCommit (B : Nat) (bm : BufferMgr) (lm : LogMgr) (dd : List (List Nat))
    (txnum : Int) :
    BufferMgr × LogMgr × List (List Nat) × Except DbError Unit :=
  let (bm2, lm2, dd2, r) := flushAll bm txnum lm dd
  match r with
  | .error e => (bm2, lm2, dd2, .error e)
  | .ok _ =>
    match commitWriteToLog B lm2 txnum with
    | none => (bm2, lm2, dd2, .error DbError.bufferSizeExceeded)
    | some (lm3, lsn) => (bm2, lmFlush lm3 lsn, dd2, .ok ())

/-- LogMgr::flush_to_fm preserves the invariant; afterwards the whole
current block is saved. -/
theorem flushToFm_rep (B : Nat) (lm : LogMgr)
    (front : List (List (List Nat))) (lastB ftail : List (List Nat))
    (hrep : LogRep B lm front lastB ftail) :
    LogRep B (flushToFm lm) front lastB lastB := by
  have hcur := hrep.hcur
  have hdlen := hrep.hdisklen
  refine ⟨hcur, ?_, ?_, hrep.hblockne, hrep.hlastwf, ⟨[], rfl⟩, ?_,
    hrep.hlatest, ?_, hrep.hfitf, hrep.hfitl⟩
  · simp only [flushToFm, List.length_set]
    exact hdlen
  · intro i hi
    simp only [flushToFm]
    rw [getD_set_ne _ _ _ _ _ (by omega)]
    exact hrep.hdiskwf i hi
  · simp only [flushToFm]
    rw [← hcur, getD_set_eq _ _ _ _ (by omega)]
    exact hrep.hlastwf
  · simp only [flushToFm]
    rw [hrep.hlatest]

/-- C6 (WAL): whenever a dirty buffer frame (modifying txnum ≥ 0, holding
block blk with recorded modification LSN L) is flushed, the code first runs
LogMgr::flush(L) and only then writes the page to the data file; at the
moment of the page write every log record with LSN at most L that exists is
within last_saved_lsn, i.e. saved in the on-disk log (the LogRep invariant
places the first last_saved_lsn records in the log file image). -/
theorem c6_wal_log_flushed_before_page_write (B : Nat) (lm : LogMgr)
    (front : List (List (List Nat))) (lastB ftail : List (List Nat))
    (hrep : LogRep B lm front lastB ftail)
    (b : Buffer) (blk : Nat) (hdirty : 0 ≤ b.txnum) (hblk : b.blk = some blk)
    (dd : List (List Nat)) :
    ∃ b2 ftail2,
      bufferFlush b lm dd
        = .ok (b2, lmFlush lm (intToUsize b.lsn), dd.set blk b.contents) ∧
      LogRep B (lmFlush lm (intToUsize b.lsn)) front lastB ftail2 ∧
      (∀ k, k ≤ intToUsize b.lsn → k ≤ lm.latest_lsn →
        k ≤ (lmFlush lm (intToUsize b.lsn)).last_saved_lsn) := by
  have hflush : bufferFlush b lm dd
      = .ok ({ b with txnum := -1 }, lmFlush lm (intToUsize b.lsn),
          dd.set blk b.contents) := by
    rw [bufferFlush, if_pos hdirty, hblk]
  by_cases hc : lm.last_saved_lsn < intToUsize b.lsn
  · refine ⟨_, lastB, hflush, ?_, ?_⟩
    · rw [lmFlush, if_pos hc]
      exact flushToFm_rep B lm front lastB ftail hrep
    · intro k hk1 hk2
      rw [lmFlush, if_pos hc]
      have := hrep.hlatest
      simp only [flushToFm]
      omega
  · refine ⟨_, ftail, hflush, ?_, ?_⟩
    · rw [lmFlush, if_neg hc]
      exact hrep
    · intro k hk1 hk2
      rw [lmFlush, if_neg hc]
      omega

/-- Witness for C6: a fresh log at blocksize 16, a dirty frame on block 0
with LSN 0. -/
theorem c6_wal_witness :
    ∃ b2 ftail2,
      bufferFlush
          { contents := 9 :: List.replicate 15 0, blk := some 0, pins := 0,
            txnum := 5, lsn := 0 }
          { disk := [[0, 0, 0, 16, 0, 0, 0, 0, 0, 0, 0, 0, 0, 0, 0, 0]],
            logpage := [0, 0, 0, 16, 0, 0, 0, 0, 0, 0, 0, 0, 0, 0, 0, 0],
            current_blk := 0, latest_lsn := 0, last_saved_lsn := 0 }
          [List.replicate 16 0]
        = .ok (b2,
            lmFlush
              { disk := [[0, 0, 0, 16, 0, 0, 0, 0, 0, 0, 0, 0, 0, 0, 0, 0]],
                logpage := [0, 0, 0, 16, 0, 0, 0, 0, 0, 0, 0, 0, 0, 0, 0, 0],
                current_blk := 0, latest_lsn := 0, last_saved_lsn := 0 }
              (intToUsize 0),
            [List.replicate 16 0].set 0 (9 :: List.replicate 15 0)) ∧
      LogRep 16
        (lmFlush
          { disk := [[0, 0, 0, 16, 0, 0, 0, 0, 0, 0, 0, 0, 0, 0, 0, 0]],
            logpage := [0, 0, 0, 16, 0, 0, 0, 0, 0, 0, 0, 0, 0, 0, 0, 0],
            current_blk := 0, latest_lsn := 0, last_saved_lsn := 0 }
          (intToUsize 0)) [] [] ftail2 ∧
      (∀ k, k ≤ intToUsize 0 →
        k ≤ ({ disk := [[0, 0, 0, 16, 0, 0, 0, 0, 0, 0, 0, 0, 0, 0, 0, 0]],
               logpage := [0, 0, 0, 16, 0, 0, 0, 0, 0, 0, 0, 0, 0, 0, 0, 0],
               current_blk := 0, latest_lsn := 0,
               last_saved_lsn := 0 } : LogMgr).latest_lsn →
        k ≤ (lmFlush
          { disk := [[0, 0, 0, 16, 0, 0, 0, 0, 0, 0, 0, 0, 0, 0, 0, 0]],
            logpage := [0, 0, 0, 16, 0, 0, 0, 0, 0, 0, 0, 0, 0, 0, 0, 0],
            current_blk := 0, latest_lsn := 0, last_saved_lsn := 0 }
          (intToUsize 0)).last_saved_lsn) :=
  c6_wal_log_flushed_before_page_write 16
    { disk := [[0, 0, 0, 16, 0, 0, 0, 0, 0, 0, 0, 0, 0, 0, 0, 0]],
      logpage := [0, 0, 0, 16, 0, 0, 0, 0, 0, 0, 0, 0, 0, 0, 0, 0],
      current_blk := 0, latest_lsn := 0, last_saved_lsn := 0 }
    [] [] []
    ⟨rfl, rfl, fun i hi => absurd hi (by simp),
      fun x hx => absurd hx (by simp),
      ⟨List.replicate 12 0, by decide, by decide⟩, ⟨[], rfl⟩,
      ⟨List.replicate 12 0, by decide, by decide⟩, rfl, rfl,
      fun x hx => absurd hx (by simp), fun x hx => absurd hx (by simp)⟩
    { contents := 9 :: List.replicate 15 0, blk := some 0, pins := 0,
      txnum := 5, lsn := 0 }
    0 (by decide) rfl [List.replicate 16 0]

/-- C4 (code bug): BufferMgr::flush_all flushes every frame whose
modifying_tx equals the transaction (here the first frame: its page reaches
the data file and its txnum is reset to -1, the clean frame is untouched),
yet the function returns Err(LockFailed("available")) although every flush
succeeded — the Rust body ends with that error on the success path. -/
theorem c4_flush_all_errors_on_success :
    flushAll
      { bufferpool :=
          [{ contents := 9 :: List.replicate 15 0, blk := some 0, pins := 0,
             txnum := 5, lsn := 0 },
           { contents := List.replicate 16 0, blk := some 0, pins := 0,
             txnum := -1, lsn := -1 }],
        num_available := 1 } 5
      { disk := [[0, 0, 0, 16, 0, 0, 0, 0, 0, 0, 0, 0, 0, 0, 0, 0]],
        logpage := [0, 0, 0, 16, 0, 0, 0, 0, 0, 0, 0, 0, 0, 0, 0, 0],
        current_blk := 0, latest_lsn := 0, last_saved_lsn := 0 }
      [List.replicate 16 0]
    = ({ bufferpool :=
           [{ contents := 9 :: List.replicate 15 0, blk := some 0, pins := 0,
              txnum := -1, lsn := 0 },
            { contents := List.replicate 16 0, blk := some 0, pins := 0,
              txnum := -1, lsn := -1 }],
         num_available := 1 },
       { disk := [[0, 0, 0, 16, 0, 0, 0, 0, 0, 0, 0, 0, 0, 0, 0, 0]],
         logpage := [0, 0, 0, 16, 0, 0, 0, 0, 0, 0, 0, 0, 0, 0, 0, 0],
         current_blk := 0, latest_lsn := 0, last_saved_lsn := 0 },
       [9 :: List.replicate 15 0],
       .error (DbError.lockFailed "available")) := by
  rfl

/-- C1 (code bug): RecoveryMgr::commit cannot succeed — flush_all always
returns an error, so commit returns Err before appending COMMIT — and even
the commit log path on its own leaves no COMMIT record in the on-disk log:
the append returns last_saved_lsn (0), and LogMgr::flush(0) does not write
(it requires lsn > last_saved_lsn), so the log file image is unchanged while
the COMMIT record sits only in the in-memory log page. -/
theorem c1_commit_record_not_on_disk :
    rmCommit 16
        { bufferpool :=
            [{ contents := List.replicate 16 0, blk := some 0, pins := 0,
               txnum := -1, lsn := -1 }],
          num_available := 1 }
        { disk := [[0, 0, 0, 16, 0, 0, 0, 0, 0, 0, 0, 0, 0, 0, 0, 0]],
          logpage := [0, 0, 0, 16, 0, 0, 0, 0, 0, 0, 0, 0, 0, 0, 0, 0],
          current_blk := 0, latest_lsn := 0, last_saved_lsn := 0 }
        [List.replicate 16 0] 7
      = ({ bufferpool :=
             [{ contents := List.replicate 16 0, blk := some 0, pins := 0,
                txnum := -1, lsn := -1 }],
           num_available := 1 },
         { disk := [[0, 0, 0, 16, 0, 0, 0, 0, 0, 0, 0, 0, 0, 0, 0, 0]],
           logpage := [0, 0, 0, 16, 0, 0, 0, 0, 0, 0, 0, 0, 0, 0, 0, 0],
           current_blk := 0, latest_lsn := 0, last_saved_lsn := 0 },
         [List.replicate 16 0],
         .error (DbError.lockFailed "available")) ∧
    commitWriteToLog 16
        { disk := [[0, 0, 0, 16, 0, 0, 0, 0, 0, 0, 0, 0, 0, 0, 0, 0]],
          logpage := [0, 0, 0, 16, 0, 0, 0, 0, 0, 0, 0, 0, 0, 0, 0, 0],
          current_blk := 0, latest_lsn := 0, last_saved_lsn := 0 } 7
      = some ({ disk := [[0, 0, 0, 16, 0, 0, 0, 0, 0, 0, 0, 0, 0, 0, 0, 0]],
                logpage := [0, 0, 0, 4, 0, 0, 0, 8, 0, 0, 0, 2, 0, 0, 0, 7],
                current_blk := 0, latest_lsn := 1,
                last_saved_lsn := 0 }, 0) ∧
    lmFlush
        { disk := [[0, 0, 0, 16, 0, 0, 0, 0, 0, 0, 0, 0, 0, 0, 0, 0]],
          logpage := [0, 0, 0, 4, 0, 0, 0, 8, 0, 0, 0, 2, 0, 0, 0, 7],
          current_blk := 0, latest_lsn := 1, last_saved_lsn := 0 } 0
      = { disk := [[0, 0, 0, 16, 0, 0, 0, 0, 0, 0, 0, 0, 0, 0, 0, 0]],
          logpage := [0, 0, 0, 4, 0, 0, 0, 8, 0, 0, 0, 2, 0, 0, 0, 7],
          current_blk := 0, latest_lsn := 1, last_saved_lsn := 0 } := by
  refine ⟨by rfl, by rfl, by rfl⟩

/-!  Log record tags and the restart-recovery scan
(tx/recovery/logrecord.rs, RecoveryMgr::do_recover in
tx/recovery/manager.rs).  The scan works on parsed records; only the tag
(op) and the transaction number are consulted, so records are modelled by
those two fields. -/

inductive TxType where
  | CHECKPOINT
  | START
  | COMMIT
  | ROLLBACK
  | SETI32
  | SETSTRING
  deriving Repr, DecidableEq

structure LogRecAbs where
  op : TxType
  txnum : Int
  deriving Repr, DecidableEq

/-- Model of the loop of RecoveryMgr::do_recover, returning the records on
which undo is invoked, in invocation order: CHECKPOINT stops the scan,
COMMIT and ROLLBACK push their txnum onto the finished list, every other
record (START, SETI32, SETSTRING — the catch-all match arm) gets undo
invoked when its txnum is not in the finished list. -/
def doRecoverUndos : List LogRecAbs → List Int → List LogRecAbs
  | [], _ => []
  | rec :: rest, finished =>
    match rec.op with
    | TxType.CHECKPOINT => []
    | TxType.COMMIT => doRecoverUndos rest (finished ++ [rec.txnum])
    | TxType.ROLLBACK => doRecoverUndos rest (finished ++ [rec.txnum])
    | _ =>
      if rec.txnum ∈ finished then doRecoverUndos rest finished
      else rec :: doRecoverUndos rest finished

/-- Model of RecoveryMgr::do_recover: the scan starts with an empty
finished list. -/
def doRecover (log : List LogRecAbs) : List LogRecAbs :=
  doRecoverUndos log []

/-- Modelled from the spec's words, amended per the counterexample: iterate
the log newest to oldest maintaining the set of finished transactions
(those seen with COMMIT or ROLLBACK); invoke undo on every record other
than CHECKPOINT, COMMIT and ROLLBACK (i.e. START, SETI32 and SETSTRING)
whose txnum is not in the finished set; stop at the first CHECKPOINT. -/
def undoSpecScan : List LogRecAbs → Finset Int → List LogRecAbs
  | [], _ => []
  | r :: rest, fin =>
    if r.op = TxType.CHECKPOINT then []
    else if r.op = TxType.COMMIT ∨ r.op = TxType.ROLLBACK then
      undoSpecScan rest (insert r.txnum fin)
    else if r.txnum ∈ fin then undoSpecScan rest fin
    else r :: undoSpecScan rest fin

theorem doRecoverUndos_spec (log : List LogRecAbs) :
    ∀ (fin : List Int) (fs : Finset Int),
      (∀ t : Int, t ∈ fin ↔ t ∈ fs) →
      doRecoverUndos log fin = undoSpecScan log fs := by
  induction log with
  | nil => intro fin fs hm; rfl
  | cons r rest ih =>
    intro fin fs hm
    have hins : ∀ t : Int, t ∈ fin ++ [r.txnum] ↔ t ∈ insert r.txnum fs := by
      intro t
      simp only [List.mem_append, List.mem_singleton, Finset.mem_insert, hm t]
      tauto
    have hsame : r.txnum ∈ fin ↔ r.txnum ∈ fs := hm r.txnum
    rcases hop : r.op with _ | _ | _ | _ | _ | _
    · simp only [doRecoverUndos, undoSpecScan, hop]
      simp
    · simp only [doRecoverUndos, undoSpecScan, hop]
      simp only [show (TxType.START = TxType.CHECKPOINT) = False from by simp,
        show (TxType.START = TxType.COMMIT ∨ TxType.START = TxType.ROLLBACK)
          = False from by simp, if_false]
      by_cases hmem : r.txnum ∈ fin
      · rw [if_pos hmem, if_pos (hsame.mp hmem), ih fin fs hm]
      · rw [if_neg hmem, if_neg (fun hc => hmem (hsame.mpr hc)), ih fin fs hm]
    · simp only [doRecoverUndos, undoSpecScan, hop]
      simp only [show (TxType.COMMIT = TxType.CHECKPOINT) = False from by simp,
        show (TxType.COMMIT = TxType.COMMIT ∨ TxType.COMMIT = TxType.ROLLBACK)
          = True from by simp, if_false, if_true]
      exact ih (fin ++ [r.txnum]) (insert r.txnum fs) hins
    · simp only [doRecoverUndos, undoSpecScan, hop]
      simp only [show (TxType.ROLLBACK = TxType.CHECKPOINT) = False from by simp,
        show (TxType.ROLLBACK = TxType.COMMIT ∨ TxType.ROLLBACK = TxType.ROLLBACK)
          = True from by simp, if_false, if_true]
      exact ih (fin ++ [r.txnum]) (insert r.txnum fs) hins
    · simp only [doRecoverUndos, undoSpecScan, hop]
      simp only [show (TxType.SETI32 = TxType.CHECKPOINT) = False from by simp,
        show (TxType.SETI32 = TxType.COMMIT ∨ TxType.SETI32 = TxType.ROLLBACK)
          = False from by simp, if_false]
      by_cases hmem : r.txnum ∈ fin
      · rw [if_pos hmem, if_pos (hsame.mp hmem), ih fin fs hm]
      · rw [if_neg hmem, if_neg (fun hc => hmem (hsame.mpr hc)), ih fin fs hm]
    · simp only [doRecoverUndos, undoSpecScan, hop]
      simp only [show (TxType.SETSTRING = TxType.CHECKPOINT) = False from by simp,
        show (TxType.SETSTRING = TxType.COMMIT ∨ TxType.SETSTRING = TxType.ROLLBACK)
          = False from by simp, if_false]
      by_cases hmem : r.txnum ∈ fin
      · rw [if_pos hmem, if_pos (hsame.mp hmem), ih fin fs hm]
      · rw [if_neg hmem, if_neg (fun hc => hmem (hsame.mpr hc)), ih fin fs hm]

/-- C2 counterexample: do_recover invokes undo on a START record (whose
transaction has no COMMIT or ROLLBACK), so undo is not invoked only on
update records (SETI32/SETSTRING) as the claim states. -/
theorem c2_undo_on_start_counterexample :
    doRecover [⟨TxType.START, 1⟩] = [⟨TxType.START, 1⟩] ∧
    ¬ (∀ r ∈ doRecover [⟨TxType.START, 1⟩],
        r.op = TxType.SETI32 ∨ r.op = TxType.SETSTRING) := by
  refine ⟨rfl, ?_⟩
  intro h
  have := h ⟨TxType.START, 1⟩ (by rw [doRecover]; exact List.mem_singleton.mpr rfl)
  rcases this with h1 | h1 <;> exact absurd h1 (by decide)

/-- C2 (amended): during the backward scan of do_recover, undo is invoked
exactly for the records before the first CHECKPOINT whose kind is not
CHECKPOINT, COMMIT or ROLLBACK (START, SETI32, SETSTRING) and whose txnum
is not in the finished set accumulated from the COMMIT and ROLLBACK records
already seen; the scan stops at the first CHECKPOINT.  doRecover equals
that specification scan started with the empty finished set. -/
theorem c2_do_recover_characterization (log : List LogRecAbs) :
    doRecover log = undoSpecScan log (∅ : Finset Int) :=
  doRecoverUndos_spec log [] ∅ (by simp)

/-!  Lock table (tx/concurrency/locktable.rs).  The HashMap is modelled as
an association list; entry().or_insert(v) inserts v only when the key is
absent — it never overwrites an existing entry. -/

structure BlockId where
  filename : String
  number : Nat
  deriving Repr, DecidableEq

inductive LockTableKey where
  | BID (b : BlockId)
  | DUMMY (n : Nat)
  deriving Repr, DecidableEq

/-- Model of get_lock_val: the entry's value, 0 when absent. -/
def getLockVal (m : List (LockTableKey × Int)) (k : LockTableKey) : Int :=
  match m.lookup k with
  | some v => v
  | none => 0

/-- Model of HashMap::entry(key).or_insert(v): insert only when absent. -/
def orInsert (m : List (LockTableKey × Int)) (k : LockTableKey) (v : Int) :
    List (LockTableKey × Int) :=
  if (m.lookup k).isSome then m else (k, v) :: m

/-- Model of LockTable::unlock: read the value; when it is above 1 the code
runs locks.entry(key).or_insert(val - 1) — which leaves an existing entry
untouched — otherwise it removes the entry. -/
def lockTableUnlock (m : List (LockTableKey × Int)) (k : LockTableKey) :
    List (LockTableKey × Int) :=
  let val := getLockVal m k
  if val > 1 then orInsert m k (val - 1)
  else m.filter (fun p => p.1 != k)

/-- C3 (code bug): with two shared holders (entry 2), unlock leaves the
entry at 2 instead of decrementing it to 1 — or_insert does not modify an
existing entry, so the computed val - 1 is discarded; the at-most-1 branch
does remove the entry. -/
theorem c3_unlock_does_not_decrement :
    lockTableUnlock [(LockTableKey.DUMMY 0, 2)] (LockTableKey.DUMMY 0)
      = [(LockTableKey.DUMMY 0, 2)] ∧
    getLockVal
      (lockTableUnlock [(LockTableKey.DUMMY 0, 2)] (LockTableKey.DUMMY 0))
      (LockTableKey.DUMMY 0) ≠ 1 ∧
    lockTableUnlock [(LockTableKey.DUMMY 0, 1)] (LockTableKey.DUMMY 0) = [] ∧
    lockTableUnlock [(LockTableKey.DUMMY 0, -1)] (LockTableKey.DUMMY 0)
      = [] := by
  refine ⟨by decide, by decide, by decide, by decide⟩

/-!  Transaction-private buffer list (tx/bufferlist.rs).  The buffers map
(BlockId → shared frame) is modelled as an association list from BlockId to
the frame's index in the pool. -/

structure BufferList where
  buffers : List (BlockId × Nat)
  pins : List BlockId
  deriving Repr, DecidableEq

/-- Model of Buffer::unpin (buffer/buffer.rs): decrement the pin count. -/
def bufUnpin (b : Buffer) : Buffer :=
  { b with pins := b.pins - 1 }

/-- Model of BufferMgr::unpin: unpin the frame; when it is no longer pinned
increment num_available. -/
def bmUnpin (bm : BufferMgr) (i : Nat) : BufferMgr :=
  match bm.bufferpool.get? i with
  | none => bm
  | some b =>
    let b2 := bufUnpin b
    { bufferpool := bm.bufferpool.set i b2,
      num_available :=
        if ¬ 0 < b2.pins then bm.num_available + 1 else bm.num_available }

/-- Model of BufferList::unpin: when the block is in the buffers map, unpin
its frame via the buffer manager, then pins.retain(|x| x == blk) — keeping
exactly the entries equal to blk — and when pins still contains blk remove
it from the buffers map. -/
def bufferListUnpin (bl : BufferList) (bm : BufferMgr) (blk : BlockId) :
    BufferList × BufferMgr :=
  match bl.buffers.lookup blk with
  | some idx =>
    let bm2 := bmUnpin bm idx
    let pins2 := bl.pins.filter (fun x => x == blk)
    let buffers2 :=
      if pins2.contains blk then bl.buffers.filter (fun p => p.1 != blk)
      else bl.buffers
    ({ buffers := buffers2, pins := pins2 }, bm2)
  | none => (bl, bm)

/-- C9 (code bug): with pins [a, b] (one recorded pin of each of two
blocks), unpin(a) leaves pins = [a] — the retain filter keeps the pins of
the unpinned block and deletes the pin of the other block b — instead of
the claimed [b]; it also deletes a from the buffers map. -/
theorem c9_bufferlist_unpin_wrong_retention :
    bufferListUnpin
      { buffers := [(⟨"f", 1⟩, 0), (⟨"f", 2⟩, 1)],
        pins := [⟨"f", 1⟩, ⟨"f", 2⟩] }
      { bufferpool :=
          [{ contents := [], blk := some 1, pins := 1, txnum := -1, lsn := -1 },
           { contents := [], blk := some 2, pins := 1, txnum := -1, lsn := -1 }],
        num_available := 0 }
      ⟨"f", 1⟩
    = ({ buffers := [(⟨"f", 2⟩, 1)], pins := [⟨"f", 1⟩] },
       { bufferpool :=
           [{ contents := [], blk := some 1, pins := 0, txnum := -1, lsn := -1 },
            { contents := [], blk := some 2, pins := 1, txnum := -1, lsn := -1 }],
         num_available := 1 }) ∧
    ([⟨"f", 1⟩] : List BlockId) ≠ [⟨"f", 2⟩] := by
  refine ⟨by decide, by decide⟩

/-!  FileMgr::read (file/manager.rs) over a data file modelled as the list
of its bytes. -/

/-- Writing bytes into a file at a position: a seek past the end of file
followed by a write fills the hole with zero bytes. -/
def fileWriteAt (file : List Nat) (pos : Nat) (bytes : List Nat) : List Nat :=
  (file ++ List.replicate (pos - file.length) 0).take pos ++ bytes
    ++ file.drop (pos + bytes.length)

/-- Model of FileMgr::read: seek to blk.number * blocksize and read up to
blocksize bytes into the page (the page buffer has blocksize bytes).  When
the read is short (the block lies at least partly beyond the end of file),
write that many zero bytes into the file at the position where the read
ended, and zero-fill the rest of the page.  Returns (new file, new page). -/
def fmRead (file : List Nat) (blknum B : Nat) : List Nat × List Nat :=
  let offset := blknum * B
  let readBytes := (file.drop offset).take B
  let read_len := readBytes.length
  if read_len < B then
    (fileWriteAt file (offset + read_len) (List.replicate (B - read_len) 0),
     readBytes ++ List.replicate (B - read_len) 0)
  else (file, readBytes)

lemma fileWriteAt_extend (file bytes : List Nat) (pos : Nat)
    (h : file.length ≤ pos) :
    fileWriteAt file pos bytes
      = (file ++ List.replicate (pos - file.length) 0) ++ bytes := by
  rw [fileWriteAt,
    List.take_of_length_le (by
      simp only [List.length_append, List.length_replicate]
      omega),
    List.drop_eq_nil_of_le (by omega), List.append_nil]

/-- C10: a read of a fully present block leaves the file unchanged; a read
of a block reaching beyond the end of file zero-fills the page remainder
and extends the file with zero bytes up to the end of the block, so a read
grows the underlying file. -/
theorem c10_fm_read_short_read_grows_file (file : List Nat) (blknum B : Nat)
    (hB : 0 < B) :
    (blknum * B + B ≤ file.length →
      fmRead file blknum B = (file, (file.drop (blknum * B)).take B)) ∧
    (file.length < blknum * B + B →
      (fmRead file blknum B).1
          = file ++ List.replicate (blknum * B + B - file.length) 0 ∧
      (fmRead file blknum B).1.length = blknum * B + B ∧
      file.length < (fmRead file blknum B).1.length ∧
      (fmRead file blknum B).2
          = (file.drop (blknum * B)).take B
            ++ List.replicate (blknum * B + B - max (blknum * B) file.length) 0) := by
  simp only [fmRead]
  obtain ⟨off, hoff⟩ : ∃ o, o = blknum * B := ⟨_, rfl⟩
  rw [← hoff]
  clear hoff
  have hrl : ((file.drop off).take B).length = min B (file.length - off) := by
    simp only [List.length_take, List.length_drop]
  constructor
  · intro h
    rw [if_neg (by rw [hrl]; omega)]
  · intro h
    have hlt : ((file.drop off).take B).length < B := by
      rw [hrl]
      omega
    rw [if_pos hlt]
    have hposge : file.length ≤ off + ((file.drop off).take B).length := by
      rw [hrl]
      omega
    have harith : off + ((file.drop off).take B).length - file.length
        + (B - ((file.drop off).take B).length) = off + B - file.length := by
      rw [hrl] at hlt hposge ⊢
      omega
    have h1 : fileWriteAt file (off + ((file.drop off).take B).length)
        (List.replicate (B - ((file.drop off).take B).length) 0)
        = file ++ List.replicate (off + B - file.length) 0 := by
      rw [fileWriteAt_extend _ _ _ hposge, List.append_assoc,
        ← List.replicate_add, harith]
    refine ⟨h1, ?_, ?_, ?_⟩
    · rw [h1]
      simp only [List.length_append, List.length_replicate]
      omega
    · rw [h1]
      simp only [List.length_append, List.length_replicate]
      omega
    · show (file.drop off).take B
          ++ List.replicate (B - ((file.drop off).take B).length) 0
        = (file.drop off).take B
          ++ List.replicate (off + B - max off file.length) 0
      rw [show B - ((file.drop off).take B).length
          = off + B - max off file.length from by rw [hrl]; omega]

/-- Witness for C10: file of 6 bytes, blocksize 4: reading block 0 leaves
the file unchanged; reading block 1 returns the 2 present bytes zero-padded
and appends 2 zero bytes to the file. -/
theorem c10_fm_read_witness :
    fmRead [1, 2, 3, 4, 5, 6] 0 4 = ([1, 2, 3, 4, 5, 6], [1, 2, 3, 4]) ∧
    (fmRead [1, 2, 3, 4, 5, 6] 1 4).1 = [1, 2, 3, 4, 5, 6, 0, 0] ∧
    (fmRead [1, 2, 3, 4, 5, 6] 1 4).2 = [5, 6, 0, 0] := by
  have h0 := (c10_fm_read_short_read_grows_file [1, 2, 3, 4, 5, 6] 0 4
    (by decide)).1 (by decide)
  have h1 := (c10_fm_read_short_read_grows_file [1, 2, 3, 4, 5, 6] 1 4
    (by decide)).2 (by decide)
  refine ⟨by rw [h0]; decide, by rw [h1.1]; decide, by rw [h1.2.2.2]; decide⟩

end SimpleDB
